import Mathlib

/-!
Verification development for the probabilistic-timed-automata library core.

The definitions below are a shallow embedding of the Python sources:

* `src/pta/clocks.py`   — clock constraints and the `delays` solver;
* `src/pta/region.py`   — the integral `Region` data structure;
* `src/pta/pta.py`      — the `PTA` record and `enabled_actions`;
* `src/pta/mdp/region_mdp.py` — the `RegionMDP` driver;
* `src/pta/distributions.py`  — `DiscreteDistribution.validate_support`.

Python integers are embedded as `Int` (the `//` and `%` of the sources are
taken at positive divisors, where Python floor-division and remainder agree
with `Int.ediv`/`Int.emod`, i.e. with Lean's `/` and `%` on `Int`).  Clock
valuations and delay times are embedded as `ℚ` (the sources use floats; the
spec allows an exact rational reading).  Python code that raises is embedded
as `Option`, with `none` for the raise.
-/

namespace Pta

/-! ### Intervals

Embedding of the `portion` intervals that `delays` constructs: a single
atomic interval with a lower bound, an optional (`none` = `+∞`) upper bound
and openness flags.  `portion` equality is set equality, so the claims about
intervals are stated through the membership test `Ival.mem` (which is what
`Interval.contains` / `in` decide, honouring endpoint openness). -/

structure Ival where
  lo : ℚ
  loOpen : Bool
  hi : Option ℚ
  hiOpen : Bool
  deriving DecidableEq, Repr

/-- Lower-endpoint test of interval membership (strict iff the endpoint is open). -/
def Ival.memLo (I : Ival) (t : ℚ) : Bool :=
  if I.loOpen then decide (I.lo < t) else decide (I.lo ≤ t)

/-- Upper-endpoint test of interval membership; an absent upper bound is `+∞`. -/
def Ival.memHi (I : Ival) (t : ℚ) : Bool :=
  match I.hi with
  | none => true
  | some b => if I.hiOpen then decide (t < b) else decide (t ≤ b)

/-- Membership `t ∈ I`, as decided by `portion`'s `in` / `Interval.contains`. -/
def Ival.mem (I : Ival) (t : ℚ) : Bool :=
  I.memLo t && I.memHi t

/-- Embeds `P.closed(lo, P.inf)`. -/
def Ival.closedRay (lo : ℚ) : Ival := ⟨lo, false, none, false⟩

/-- Embeds `P.open(lo, P.inf)`. -/
def Ival.openRay (lo : ℚ) : Ival := ⟨lo, true, none, false⟩

/-- Embeds `P.closed(lo, hi)` (an empty set when `hi < lo`, exactly as in `portion`). -/
def Ival.closedSeg (lo hi : ℚ) : Ival := ⟨lo, false, some hi, false⟩

/-- Embeds `P.closedopen(lo, hi)` (an empty set when `hi ≤ lo`). -/
def Ival.closedOpenSeg (lo hi : ℚ) : Ival := ⟨lo, false, some hi, true⟩

/-- Embeds `P.empty()`: a canonical interval with no members. -/
def Ival.emptyIv : Ival := ⟨0, true, some 0, true⟩

/-- Embeds `portion`'s `&` (interval intersection) on atomic intervals:
the larger lower bound and the smaller upper bound win, the open flag wins
on ties. -/
def Ival.inter (I J : Ival) : Ival :=
  let lo : ℚ × Bool :=
    if I.lo < J.lo then (J.lo, J.loOpen)
    else if J.lo < I.lo then (I.lo, I.loOpen)
    else (I.lo, I.loOpen || J.loOpen)
  let hi : Option ℚ × Bool :=
    match I.hi, J.hi with
    | none, none => (none, false)
    | none, some b => (some b, J.hiOpen)
    | some a, none => (some a, I.hiOpen)
    | some a, some b =>
      if a < b then (some a, I.hiOpen)
      else if b < a then (some b, J.hiOpen)
      else (some a, I.hiOpen || J.hiOpen)
  ⟨lo.1, lo.2, hi.1, hi.2⟩

/-! ### Clock constraints (`src/pta/clocks.py`)

The clock type is an arbitrary type `C` (Python `Clock` is an opaque hashable
identity).  `rhs` carries the `_rhs_validator` invariant (`rhs ≥ 0`) in its
type. -/

inductive ComparisonOp where
  | GE | GT | LE | LT
  deriving DecidableEq, Repr

inductive ClockConstraint (C : Type) where
  | Boolean (value : Bool)
  | And (left right : ClockConstraint C)
  | SingletonConstraint (clock : C) (rhs : ℕ) (op : ComparisonOp)
  | DiagonalConstraint (clock1 clock2 : C) (rhs : ℕ) (op : ComparisonOp)
  deriving DecidableEq, Repr

/-- Embeds the `&` operator on constraints (`ClockConstraint.__and__` and its
`Boolean.__and__` override): a `Boolean` folds per its truth value, anything
else builds an `And` pair. -/
def ClockConstraint.conj {C : Type} :
    ClockConstraint C → ClockConstraint C → ClockConstraint C
  | .Boolean b, other => if b then other else .Boolean false
  | self, .Boolean b => if b then self else .Boolean false
  | self, other => .And self other

/-- Embeds `pta.clocks.delays`.  The `DiagonalConstraint` branch of the source
reads the local variable `n`, which is assigned only inside the
`SingletonConstraint` branch, so reaching it raises `UnboundLocalError`;
that raise is embedded as `none`.  All other branches return the `portion`
interval built by the source. -/
def delays {C : Type} (values : C → ℚ) : ClockConstraint C → Option Ival
  | .Boolean b => if b then some (Ival.closedRay 0) else some Ival.emptyIv
  | .SingletonConstraint c n op =>
    let v := values c
    match op with
    | .GE => some (Ival.closedRay ((n : ℚ) - v))
    | .GT => some (Ival.openRay ((n : ℚ) - v))
    | .LE => some (Ival.closedSeg 0 ((n : ℚ) - v))
    | .LT => some (Ival.closedOpenSeg 0 ((n : ℚ) - v))
  | .And a b => do
    let ia ← delays values a
    let ib ← delays values b
    pure (ia.inter ib)
  | .DiagonalConstraint _ _ _ _ => none

/-- Modelled from the spec: the valuation-membership test used by
`PTA.enabled_actions` (`values in guard`, i.e. `ClockConstraint.__contains__`)
is absent from `src`; per the spec a valuation satisfies `φ` iff
`0 ∈ delays(val, φ)`.  A `delays` failure (the diagonal-branch raise)
propagates, so the test yields `false` only through a defined interval. -/
def satisfies {C : Type} (values : C → ℚ) (φ : ClockConstraint C) : Bool :=
  match delays values φ with
  | some i => i.mem 0
  | none => false

/-! ### Discrete distributions (`src/pta/distributions.py`) -/

structure DiscreteDistribution (α : Type) where
  dist : List (α × ℚ)

/-- Embeds `DiscreteDistribution.validate_support`:
`not (set(self._dist.keys()) <= check_set)`. -/
def DiscreteDistribution.validate_support {α : Type} [DecidableEq α]
    (d : DiscreteDistribution α) (check_set : List α) : Bool :=
  !(decide (∀ p ∈ d.dist, p.1 ∈ check_set))

/-! ### The Region data structure (`src/pta/region.py`)

The clock set of the Python object is a fixed finite set; it is embedded as
`Fin n`.  The mutable dictionaries `_value_vector` and `_fractional_ord`
become total functions on `Fin n`; the in-place mutations of the source
become functional state updates, respecting the source's statement order. -/

@[ext]
structure Region (n : ℕ) where
  value_vector : Fin n → Int
  fractional_ord : Fin n → Int
  num_frac : Int
  is_int : Bool

/-- Embeds `Region.__attrs_post_init__` (the spec's `allZeros` initial state):
every integer part and fractional rank 0, `num_frac = 1`, `is_int = True`. -/
def Region.init (n : ℕ) : Region n :=
  ⟨fun _ => 0, fun _ => 0, 1, true⟩

/-- Embeds `Region.value`: the representative valuation
`I(c) + (2·F(c) + int(is_int)) / (2·num_frac)`, read exactly (the source uses
floats; every value is rational with denominator `2·num_frac`). -/
def Region.value {n : ℕ} (R : Region n) : Fin n → ℚ :=
  fun c => (R.value_vector c : ℚ) +
    (2 * (R.fractional_ord c : ℚ) + (if R.is_int then 1 else 0)) /
      (2 * (R.num_frac : ℚ))

/-- Embeds `Region.delay`.  The source asserts `steps >= 1`; the `steps == 1`
branch rebuilds `_fractional_ord` first and then `_value_vector` from the new
ranks, the general branch applies the closed-form update and toggles
`_is_int` for odd `steps`. -/
def Region.delay {n : ℕ} (R : Region n) (steps : ℕ) : Region n :=
  if steps = 1 then
    if R.is_int then
      { R with is_int := false }
    else
      let frac' : Fin n → Int := fun c => (R.fractional_ord c + 1) % R.num_frac
      { R with
        fractional_ord := frac',
        value_vector := fun c => R.value_vector c + (if frac' c = 0 then 1 else 0),
        is_int := true }
  else
    let s : Int := if R.is_int then 1 else 0
    { value_vector := fun c =>
        R.value_vector c + (2 * R.fractional_ord c + s + (steps : Int)) / (2 * R.num_frac),
      fractional_ord := fun c =>
        (R.fractional_ord c + ((steps : Int) + s) / 2) % R.num_frac,
      num_frac := R.num_frac,
      is_int := if steps % 2 = 1 then !R.is_int else R.is_int }

/-- Embeds `Region.reset`.  The early branch handles `is_int` with rank 0;
otherwise `same` asks whether another clock shares the reset clock's rank,
`_num_frac` is updated before the loop, and each other clock's rank is first
collapsed (when `not same` and above the vacated rank) and then shifted
(when `not is_int`), both modulo the updated `_num_frac`. -/
def Region.reset {n : ℕ} (R : Region n) (reset_clock : Fin n) : Region n :=
  if R.is_int = true ∧ R.fractional_ord reset_clock = 0 then
    { R with value_vector := Function.update R.value_vector reset_clock 0 }
  else
    let same : Bool :=
      decide (∃ c : Fin n, c ≠ reset_clock ∧
        R.fractional_ord c = R.fractional_ord reset_clock)
    let m' : Int := R.num_frac + (if same then 0 else 1) - (if R.is_int then 1 else 0)
    let step1 : Fin n → Int := fun c =>
      if c ≠ reset_clock ∧ same = false ∧
          R.fractional_ord reset_clock < R.fractional_ord c
      then (R.fractional_ord c - 1) % m'
      else R.fractional_ord c
    let step2 : Fin n → Int := fun c =>
      if c ≠ reset_clock ∧ R.is_int = false then (step1 c + 1) % m' else step1 c
    { value_vector := Function.update R.value_vector reset_clock 0,
      fractional_ord := Function.update step2 reset_clock 0,
      num_frac := m',
      is_int := true }

/-- An operation on a Region: an integer delay or a clock reset. -/
inductive RegionOp (n : ℕ) where
  | delay (steps : ℕ)
  | reset (c : Fin n)

def Region.applyOp {n : ℕ} (R : Region n) : RegionOp n → Region n
  | .delay k => R.delay k
  | .reset c => R.reset c

/-- Apply a finite sequence of delay/reset operations in order. -/
def Region.applyOps {n : ℕ} (R : Region n) (ops : List (RegionOp n)) : Region n :=
  ops.foldl Region.applyOp R

/-- A sequence of operations is valid when every delay takes at least one
step (the source asserts `steps >= 1`). -/
def validOps {n : ℕ} (ops : List (RegionOp n)) : Bool :=
  ops.all fun op => match op with
    | .delay k => decide (1 ≤ k)
    | .reset _ => true

/-- The spec's Region invariants (R1)–(R4), stated on the embedded state:
(R1) `m ≥ 1` and `m = 1` iff all fractional ranks are equal;
(R2) the ranks lie in `{0, …, m−1}` and every such value is attained;
(R3) some clock has rank 0;
(R4) if `allInt` then every rank is 0 and `m = 1`. -/
def regionInvariants {n : ℕ} (R : Region n) : Prop :=
  (1 ≤ R.num_frac ∧
    (R.num_frac = 1 ↔ ∀ c c' : Fin n, R.fractional_ord c = R.fractional_ord c')) ∧
  ((∀ c, 0 ≤ R.fractional_ord c ∧ R.fractional_ord c < R.num_frac) ∧
    ∀ j : ℤ, 0 ≤ j → j < R.num_frac → ∃ c, R.fractional_ord c = j) ∧
  (∃ c : Fin n, R.fractional_ord c = 0) ∧
  (R.is_int = true → (∀ c, R.fractional_ord c = 0) ∧ R.num_frac = 1)

/-- Auxiliary predicate for the reachability analysis of the source's
`delay`/`reset`: a single fractional class with every rank 0.  With at least
two clocks this holds of every state the source code can reach from
`allZeros` (the `int(not same)` update in `reset` never grows `num_frac`
there). -/
def trivialFrac {n : ℕ} (R : Region n) : Prop :=
  R.num_frac = 1 ∧ ∀ c, R.fractional_ord c = 0

/-- Written from the spec's closed-form description of `delay_steps(k)`
(§4.3), to be compared with the source's `Region.delay`:
`I'(c) = I(c) + ⌊(2·F(c) + s + k) / (2·m)⌋`,
`F'(c) = (F(c) + ⌊(k + s) / 2⌋) mod m`,
`allInt' = allInt XOR (k mod 2 = 1)`, with `s = 1` if `allInt` else `0`. -/
def Region.delayClosedForm {n : ℕ} (R : Region n) (k : ℕ) : Region n :=
  let s : Int := if R.is_int then 1 else 0
  { value_vector := fun c =>
      R.value_vector c + (2 * R.fractional_ord c + s + (k : Int)) / (2 * R.num_frac),
    fractional_ord := fun c =>
      (R.fractional_ord c + ((k : Int) + s) / 2) % R.num_frac,
    num_frac := R.num_frac,
    is_int := xor R.is_int (decide (k % 2 = 1)) }

/-- Modelled from the spec: `Region.delay_float` / `delay_real` is absent from
`src` (only `RegionMDP.delay` calls it).  Per §4.3/§9 it applies the unique
`delay_steps(k)` equivalent to elapsing `t` time units, where `k` counts the
region-graph boundaries crossed in `(0, t]`: one for leaving the current
integer region, plus, for each fractional class (whose fractional position is
`(2j + ⟦¬allInt⟧)/(2m)`), two per integer hit before `t` and one for a hit
exactly at `t`. -/
def Region.stepsFor {n : ℕ} (R : Region n) (t : ℚ) : ℕ :=
  let m : ℕ := R.num_frac.toNat
  let sBit : ℕ := if R.is_int = true ∧ 0 < t then 1 else 0
  let classHits : ℕ → ℕ := fun j =>
    let f : ℚ := (2 * (j : ℚ) + (if R.is_int then 0 else 1)) / (2 * (m : ℚ))
    let h : ℚ := if f = 0 then 1 else 1 - f
    if t < h then 0
    else
      let hits : ℕ := (⌊t - h⌋).toNat + 1
      let exact : Bool := decide ((⌊t - h⌋ : ℚ) = t - h)
      2 * hits - (if exact then 1 else 0)
  sBit + ((List.range m).map classHits).sum

/-- Modelled from the spec: elapse `t` real time units by taking the
equivalent number of integer steps (no step when `t` does not leave the
current region). -/
def Region.delay_float {n : ℕ} (R : Region n) (t : ℚ) : Region n :=
  let k := R.stepsFor t
  if k = 0 then R else R.delay k

/-! ### PTA and the Region-MDP driver (`src/pta/pta.py`, `src/pta/mdp/region_mdp.py`)

Locations, action labels and distribution objects are opaque types `L`, `A`,
`D`; the transition map of a location is the association list of its labelled
`(guard, distribution)` pairs (a Python dict iterated in order). -/

structure PTA (L A C D : Type) where
  locations : List L
  init_location : L
  transitions : L → List (A × ClockConstraint C × D)
  invariants : L → ClockConstraint C

/-- Embeds the dict comprehension of `PTA.enabled_actions`: walk the
transitions of the location, keep `label ↦ dist` for each guard the valuation
satisfies; a raise inside the membership test (through `delays`) aborts the
whole call (`none`). -/
def enabledList {C A D : Type} (values : C → ℚ) :
    List (A × ClockConstraint C × D) → Option (List (A × D))
  | [] => some []
  | (a, g, d) :: rest => do
    let i ← delays values g
    let r ← enabledList values rest
    pure (if i.mem 0 then (a, d) :: r else r)

/-- Embeds `PTA.enabled_actions(loc, values)`.  The source's asserts (the
location is declared, the valuation covers every clock) hold by typing here:
`loc : L` and `values` is total on `C`. -/
def PTA.enabled_actions {L A C D : Type} (pta : PTA L A C D) (loc : L)
    (values : C → ℚ) : Option (List (A × D)) :=
  enabledList values (pta.transitions loc)

/-- Embeds the runtime state of `RegionMDP`: the PTA, the current location
and the current Region over the PTA's clocks `Fin n`. -/
structure RegionMDP (L A D : Type) (n : ℕ) where
  pta : PTA L A (Fin n) D
  current_location : L
  current_region : Region n

/-- Embeds `RegionMDP.__attrs_post_init__`: initial location, all-zeros Region. -/
def RegionMDP.initMDP {L A D : Type} {n : ℕ} (pta : PTA L A (Fin n) D) :
    RegionMDP L A D n :=
  ⟨pta, pta.init_location, Region.init n⟩

/-- Embeds the `clock_valuation` property: the Region's representative map. -/
def RegionMDP.clock_valuation {L A D : Type} {n : ℕ} (s : RegionMDP L A D n) :
    Fin n → ℚ :=
  s.current_region.value

/-- Embeds `RegionMDP.invariant_interval`: the allowed delays of the current
location's invariant at the current valuation (`none` when `delays` raises). -/
def RegionMDP.invariant_interval {L A D : Type} {n : ℕ} (s : RegionMDP L A D n) :
    Option Ival :=
  delays s.clock_valuation (s.pta.invariants s.current_location)

/-- Embeds `RegionMDP.delay(time)`: if `time` is outside the invariant
interval, return the distinguished violation value `None` with the state
untouched; otherwise advance the Region by `delay_float(time)` and return the
new `(location, valuation)`.  The outer `Option` is a raise inside
`invariant_interval` (diagonal-constraint invariant); the inner one is the
source's `None`. -/
def RegionMDP.delay {L A D : Type} {n : ℕ} (s : RegionMDP L A D n) (time : ℚ) :
    Option (Option (L × (Fin n → ℚ)) × RegionMDP L A D n) :=
  match s.invariant_interval with
  | none => none
  | some iv =>
    if iv.mem time then
      let s' := { s with current_region := s.current_region.delay_float time }
      some (some (s'.current_location, s'.clock_valuation), s')
    else
      some (none, s)

/-- Embeds `RegionMDP.reset`: re-run `__attrs_post_init__` and return the
(initial) location and valuation. -/
def RegionMDP.resetMDP {L A D : Type} {n : ℕ} (s : RegionMDP L A D n) :
    (L × (Fin n → ℚ)) × RegionMDP L A D n :=
  let s' := RegionMDP.initMDP s.pta
  ((s'.current_location, s'.clock_valuation), s')

/-! ### A concrete one-clock PTA used to instantiate the theorems

One location `0`, one clock `x`, a single edge labelled `1` guarded by
`x ≥ 2` with distribution tag `7`, and the location invariant `x ≤ 3`
(the §8 example). -/

def exPTA : PTA ℕ ℕ (Fin 1) ℕ :=
  { locations := [0],
    init_location := 0,
    transitions := fun _ =>
      [(1, ClockConstraint.SingletonConstraint 0 2 ComparisonOp.GE, 7)],
    invariants := fun _ => ClockConstraint.SingletonConstraint 0 3 ComparisonOp.LE }

def exMDP : RegionMDP ℕ ℕ ℕ 1 := RegionMDP.initMDP exPTA

/-! ### Helper lemmas -/

/-- The embedded `&` of `portion` computes set intersection on the lower
half: a point clears the intersected lower endpoint iff it clears both. -/
theorem Ival.memLo_inter (I J : Ival) (t : ℚ) :
    (I.inter J).memLo t = (I.memLo t && J.memLo t) := by
  rcases I with ⟨ilo, iloO, ihi, ihiO⟩
  rcases J with ⟨jlo, jloO, jhi, jhiO⟩
  apply Bool.eq_iff_iff.mpr
  simp only [Ival.inter, Ival.memLo, Bool.and_eq_true]
  rcases lt_trichotomy ilo jlo with h | h | h
  · rw [if_pos h]
    cases iloO <;> cases jloO <;>
      simp only [decide_eq_true_eq, if_true, if_false, Bool.false_eq_true] <;>
      constructor <;> intro hh
    · exact ⟨by linarith, hh⟩
    · exact hh.2
    · exact ⟨by linarith, hh⟩
    · exact hh.2
    · exact ⟨by linarith, hh⟩
    · exact hh.2
    · exact ⟨by linarith, hh⟩
    · exact hh.2
  · subst h
    rw [if_neg (lt_irrefl ilo), if_neg (lt_irrefl ilo)]
    cases iloO <;> cases jloO <;>
      simp only [decide_eq_true_eq, Bool.false_or, Bool.true_or, if_true, if_false,
        Bool.false_eq_true] <;>
      constructor <;> intro hh
    · exact ⟨hh, hh⟩
    · exact hh.1
    · exact ⟨by linarith, hh⟩
    · exact hh.2
    · exact ⟨hh, by linarith⟩
    · exact hh.1
    · exact ⟨hh, hh⟩
    · exact hh.1
  · rw [if_neg (not_lt_of_gt h), if_pos h]
    cases iloO <;> cases jloO <;>
      simp only [decide_eq_true_eq, if_true, if_false, Bool.false_eq_true] <;>
      constructor <;> intro hh
    · exact ⟨hh, by linarith⟩
    · exact hh.1
    · exact ⟨hh, by linarith⟩
    · exact hh.1
    · exact ⟨hh, by linarith⟩
    · exact hh.1
    · exact ⟨hh, by linarith⟩
    · exact hh.1

/-- The embedded `&` of `portion` computes set intersection on the upper
half. -/
theorem Ival.memHi_inter (I J : Ival) (t : ℚ) :
    (I.inter J).memHi t = (I.memHi t && J.memHi t) := by
  rcases I with ⟨ilo, iloO, ihi, ihiO⟩
  rcases J with ⟨jlo, jloO, jhi, jhiO⟩
  apply Bool.eq_iff_iff.mpr
  cases ihi with
  | none =>
    cases jhi with
    | none => simp [Ival.inter, Ival.memHi]
    | some b => simp [Ival.inter, Ival.memHi]
  | some a =>
    cases jhi with
    | none => simp [Ival.inter, Ival.memHi]
    | some b =>
      simp only [Ival.inter, Ival.memHi, Bool.and_eq_true]
      rcases lt_trichotomy a b with h | h | h
      · rw [if_pos h]
        cases ihiO <;> cases jhiO <;>
          simp only [decide_eq_true_eq, if_true, if_false, Bool.false_eq_true] <;>
          constructor <;> intro hh
        · exact ⟨hh, by linarith⟩
        · exact hh.1
        · exact ⟨hh, by linarith⟩
        · exact hh.1
        · exact ⟨hh, by linarith⟩
        · exact hh.1
        · exact ⟨hh, by linarith⟩
        · exact hh.1
      · subst h
        rw [if_neg (lt_irrefl a), if_neg (lt_irrefl a)]
        cases ihiO <;> cases jhiO <;>
          simp only [decide_eq_true_eq, Bool.false_or, Bool.true_or, if_true, if_false,
            Bool.false_eq_true] <;>
          constructor <;> intro hh
        · exact ⟨hh, hh⟩
        · exact hh.1
        · exact ⟨by linarith, hh⟩
        · exact hh.2
        · exact ⟨hh, by linarith⟩
        · exact hh.1
        · exact ⟨hh, hh⟩
        · exact hh.1
      · rw [if_neg (not_lt_of_gt h), if_pos h]
        cases ihiO <;> cases jhiO <;>
          simp only [decide_eq_true_eq, if_true, if_false, Bool.false_eq_true] <;>
          constructor <;> intro hh
        · exact ⟨by linarith, hh⟩
        · exact hh.2
        · exact ⟨by linarith, hh⟩
        · exact hh.2
        · exact ⟨by linarith, hh⟩
        · exact hh.2
        · exact ⟨by linarith, hh⟩
        · exact hh.2

/-- The embedded `&` of `portion` computes set intersection: membership in
the intersection is the conjunction of memberships. -/
theorem Ival.mem_inter (I J : Ival) (t : ℚ) :
    (I.inter J).mem t = (I.mem t && J.mem t) := by
  simp only [Ival.mem, Ival.memLo_inter, Ival.memHi_inter]
  cases I.memLo t <;> cases I.memHi t <;> cases J.memLo t <;> cases J.memHi t <;> rfl

/-- The initial state has one fractional class with all ranks 0. -/
theorem trivialFrac_init (n : ℕ) : trivialFrac (Region.init n) :=
  ⟨rfl, fun _ => rfl⟩

/-- `delay` preserves the single-class all-zero-rank invariant. -/
theorem trivialFrac_delay {n : ℕ} (R : Region n) (h : trivialFrac R) (k : ℕ) :
    trivialFrac (R.delay k) := by
  obtain ⟨hm, hf⟩ := h
  by_cases hk : k = 1
  · subst hk
    cases hi : R.is_int
    · constructor
      · simp [Region.delay, hi, hm]
      · intro c
        simp [Region.delay, hi, hf c, hm]
    · constructor
      · simp [Region.delay, hi, hm]
      · intro c
        simp [Region.delay, hi, hf c]
  · constructor
    · simp [Region.delay, hk, hm]
    · intro c
      simp [Region.delay, hk, hf c, hm, Int.emod_one]

/-- With at least two clocks, `reset` preserves the single-class
all-zero-rank invariant: the reset clock's rank 0 is always shared, so
`same` is true and the (inverted) `num_frac` update keeps `num_frac = 1`. -/
theorem trivialFrac_reset {n : ℕ} (hn : 2 ≤ n) (R : Region n)
    (h : trivialFrac R) (rc : Fin n) : trivialFrac (R.reset rc) := by
  obtain ⟨hm, hf⟩ := h
  by_cases hi : R.is_int = true ∧ R.fractional_ord rc = 0
  · constructor
    · simp [Region.reset, hi, hm]
    · intro c
      simp [Region.reset, hi, hf c]
  · have hint : R.is_int = false := by
      cases hb : R.is_int
      · rfl
      · exact absurd ⟨hb, hf rc⟩ hi
    obtain ⟨m, rfl⟩ : ∃ m, n = m + 2 := ⟨n - 2, by omega⟩
    obtain ⟨c0, hc0⟩ : ∃ c0 : Fin (m + 2), c0 ≠ rc := exists_ne rc
    have hsame : (decide (∃ c : Fin (m + 2), c ≠ rc ∧
        R.fractional_ord c = R.fractional_ord rc)) = true :=
      decide_eq_true ⟨c0, hc0, by rw [hf c0, hf rc]⟩
    constructor
    · show (R.reset rc).num_frac = 1
      unfold Region.reset
      rw [if_neg hi]
      simp only [hsame]
      simp only [hint, hm]
      decide
    · intro c
      by_cases hcr : c = rc
      · subst hcr
        show (R.reset c).fractional_ord c = 0
        unfold Region.reset
        rw [if_neg hi]
        simp [Function.update_same]
      · show (R.reset rc).fractional_ord c = 0
        unfold Region.reset
        rw [if_neg hi]
        simp only [hsame]
        simp only [hint, hm, hf]
        rw [Function.update_noteq hcr]
        simp [hcr]

/-- With at least two clocks, every state the source reaches from `allZeros`
by delays and resets keeps a single fractional class with all ranks 0. -/
theorem trivialFrac_applyOps {n : ℕ} (hn : 2 ≤ n) (ops : List (RegionOp n)) :
    ∀ R : Region n, trivialFrac R → trivialFrac (Region.applyOps R ops) := by
  induction ops with
  | nil => exact fun R h => h
  | cons op tl ih =>
    intro R h
    cases op with
    | delay k => exact ih _ (trivialFrac_delay R h k)
    | reset c => exact ih _ (trivialFrac_reset hn R h c)

/-- A single fractional class with all ranks 0 satisfies (R1)–(R4) whenever
the clock set is non-empty. -/
theorem trivialFrac_invariants {n : ℕ} (hn : 0 < n) (R : Region n)
    (h : trivialFrac R) : regionInvariants R := by
  obtain ⟨hm, hf⟩ := h
  refine ⟨⟨by omega, ⟨fun _ c c' => by rw [hf c, hf c'], fun _ => hm⟩⟩,
    ⟨fun c => ?_, fun j h0 hj => ?_⟩, ⟨⟨0, hn⟩, hf _⟩, fun _ => ⟨hf, hm⟩⟩
  · rw [hf c, hm]
    omega
  · rw [hm] at hj
    exact ⟨⟨0, hn⟩, by rw [hf]; omega⟩

/-! ### Claim C2 -/

/-- C2 counterexample: over a single clock, the valid sequence
`delay_steps(1); reset(x)` drives the source into the state
`F(x) = 0`, `m = 2`, `allInt = true` — `reset` from the open region finds no
other clock sharing the rank (`same = False`) and its `int(not same)` update
bumps `m` to 2 — which violates (R1) (`m = 1` iff all ranks equal), (R2)
(rank 1 is never attained) and (R4) (`allInt` with `m ≠ 1`). -/
theorem c2_counterexample :
    validOps [RegionOp.delay 1, RegionOp.reset (0 : Fin 1)] = true ∧
    ¬ regionInvariants (Region.applyOps (Region.init 1)
      [RegionOp.delay 1, RegionOp.reset (0 : Fin 1)]) := by
  refine ⟨by decide, fun h => ?_⟩
  have h4 := (h.2.2.2 (by decide)).2
  have h2 : (Region.applyOps (Region.init 1)
      [RegionOp.delay 1, RegionOp.reset (0 : Fin 1)]).num_frac = 2 := by decide
  omega

/-- C2 (amended): over a clock set with at least two clocks, every finite
sequence of `delay_steps(k ≥ 1)` and `reset` operations applied from
`allZeros` yields a state satisfying (R1)–(R4) (indeed every reachable state
keeps `m = 1` and all ranks 0); over a single clock the invariants fail, as
`reset` from an open region inverts the intended `same` update of `m`. -/
theorem c2_invariants_hold {n : ℕ} (hn : 2 ≤ n) (ops : List (RegionOp n))
    (_hops : validOps ops = true) :
    regionInvariants (Region.applyOps (Region.init n) ops) :=
  trivialFrac_invariants (by omega) _
    (trivialFrac_applyOps hn ops (Region.init n) (trivialFrac_init n))

/-- C2 witness: the amended theorem applied over two clocks to the sequence
`delay_steps(1); reset(x)`. -/
theorem c2_witness :
    regionInvariants (Region.applyOps (Region.init 2)
      [RegionOp.delay 1, RegionOp.reset (0 : Fin 2)]) :=
  c2_invariants_hold (by norm_num) [RegionOp.delay 1, RegionOp.reset (0 : Fin 2)]
    (by decide)

/-! ### Claim C1 -/

/-- C1 (code_bug evidence): immediately after construction, `Region.value`
maps every clock to `1/2`, not to `0` as the claim (and the repository's own
`test_region_value`) states — the source adds `int(self._is_int)` where the
intended representative needs `int(not self._is_int)`, so the `allZeros`
state with `I = 0`, `F = 0`, `m = 1`, `allInt = True` evaluates to
`0 + (2·0 + 1)/(2·1) = 1/2` for every clock. -/
theorem c1_initial_value_is_half (n : ℕ) (c : Fin n) :
    (Region.init n).value c = 1 / 2 := by
  norm_num [Region.init, Region.value]

/-! ### Claim C5 -/

/-- C5 counterexample: at `k = 1` the source's `delay` takes its special-cased
branch, which disagrees with the claimed closed form — from the all-integer
initial state over one clock, `delay(1)` leaves the integer part at `0`
while the closed form `I + ⌊(2·F + s + k)/(2·m)⌋ = 0 + ⌊2/2⌋` yields `1`,
so the two resulting Regions differ. -/
theorem c5_counterexample :
    ((Region.init 1).delay 1).value_vector 0 = 0 ∧
    ((Region.init 1).delayClosedForm 1).value_vector 0 = 1 ∧
    (Region.init 1).delay 1 ≠ (Region.init 1).delayClosedForm 1 := by
  refine ⟨by decide, by decide, fun h => ?_⟩
  have := congrArg (fun R : Region 1 => R.value_vector 0) h
  simp only at this
  rw [show ((Region.init 1).delay 1).value_vector 0 = 0 from by decide,
    show ((Region.init 1).delayClosedForm 1).value_vector 0 = 1 from by decide] at this
  exact absurd this (by decide)

/-- C5 (amended): for every Region state and every `k ≥ 2`, `delay_steps(k)`
performs exactly the claimed closed-form update
`I'(c) = I(c) + ⌊(2·F(c) + s + k)/(2·m)⌋`,
`F'(c) = (F(c) + ⌊(k + s)/2⌋) mod m`,
`allInt' = allInt XOR (k mod 2 = 1)` with `s = ⟦allInt⟧`; the `k = 1`
special case of the source differs from this form. -/
theorem c5_delay_matches_closed_form {n : ℕ} (R : Region n) (k : ℕ) (hk : 2 ≤ k) :
    R.delay k = R.delayClosedForm k := by
  have hne : k ≠ 1 := by omega
  unfold Region.delay Region.delayClosedForm
  rw [if_neg hne]
  ext c
  · rfl
  · rfl
  · rfl
  · by_cases h : k % 2 = 1 <;> cases hR : R.is_int <;> simp [h, hR]

/-- C5 witness: the amended theorem applied at the initial one-clock Region
and `k = 2`. -/
theorem c5_witness :
    (Region.init 1).delay 2 = (Region.init 1).delayClosedForm 2 :=
  c5_delay_matches_closed_form (Region.init 1) 2 (by norm_num)

/-! ### Claim C7 -/

/-- C7 counterexample: with `val(c) = 5` and the constraint `c ≥ 1`, the
source returns `P.closed(1 − 5, ∞) = [−4, ∞)`, which contains `−1`, while
the claimed interval `[max(0, 1 − 5), ∞) = [0, ∞)` does not — the `≥` and
`>` branches of `delays` do not clamp the lower endpoint at `0`. -/
theorem c7_counterexample :
    (delays (fun _ : ℕ => (5 : ℚ))
        (ClockConstraint.SingletonConstraint 0 1 ComparisonOp.GE)).map
      (fun i => i.mem (-1)) = some true ∧
    (Ival.closedRay (max 0 ((1 : ℚ) - 5))).mem (-1) = false :=
  ⟨by with_unfolding_all decide, by with_unfolding_all decide⟩

/-- C7 (amended): `delays(val, c ≥ n)` is the closed ray `[n − v, ∞)` and
`delays(val, c > n)` the open ray `(n − v, ∞)`, without clamping at `0`:
a delay `t` belongs iff `n − v ≤ t` (resp. `n − v < t`).  These coincide
with the claimed `max(0, n − v)` intervals only when `v ≤ n`; for `v > n`
the returned lower endpoint is negative. -/
theorem c7_ge_gt_rays {C : Type} (values : C → ℚ) (c : C) (n : ℕ) (t : ℚ) :
    (delays values (ClockConstraint.SingletonConstraint c n ComparisonOp.GE)).map
        (fun i => i.mem t) = some (decide ((n : ℚ) - values c ≤ t)) ∧
    (delays values (ClockConstraint.SingletonConstraint c n ComparisonOp.GT)).map
        (fun i => i.mem t) = some (decide ((n : ℚ) - values c < t)) := by
  constructor <;>
    simp [delays, Ival.mem, Ival.memLo, Ival.memHi, Ival.closedRay, Ival.openRay]

/-- No rational is a member of the empty interval. -/
theorem Ival.mem_emptyIv (t : ℚ) : Ival.emptyIv.mem t = false := by
  by_cases h : 0 < t
  · simp [Ival.mem, Ival.memLo, Ival.memHi, Ival.emptyIv, h]
    linarith
  · simp [Ival.mem, Ival.memLo, Ival.memHi, Ival.emptyIv, h]

/-- Every nonnegative rational is a member of `[0, ∞)`. -/
theorem Ival.mem_closedRay_zero (t : ℚ) (ht : 0 ≤ t) :
    (Ival.closedRay 0).mem t = true := by
  simp [Ival.mem, Ival.memLo, Ival.memHi, Ival.closedRay, ht]

/-- Unfolding of `delays` on a conjunction: solve both sides, intersect. -/
theorem delays_And {C : Type} (values : C → ℚ) (x y : ClockConstraint C) :
    delays values (ClockConstraint.And x y) =
      (delays values x).bind fun ia =>
        (delays values y).bind fun ib => some (ia.inter ib) :=
  rfl

/-! ### Claim C8 -/

/-- C8 counterexample: with `val(c) = 5`, `φ₁ = (c ≥ 1)` and `φ₂ = TRUE`,
the conjunction operator folds `φ₁ ∧ TRUE` to `φ₁`, whose delay interval
`[−4, ∞)` contains `−1`; but the intersection
`delays(val, φ₁) ∩ delays(val, TRUE) = [−4, ∞) ∩ [0, ∞) = [0, ∞)` does not,
so `delays(val, φ₁ ∧ φ₂)` differs from the claimed intersection. -/
theorem c8_counterexample :
    (delays (fun _ : ℕ => (5 : ℚ))
        ((ClockConstraint.SingletonConstraint 0 1 ComparisonOp.GE).conj
          (ClockConstraint.Boolean true))).map (fun i => i.mem (-1)) = some true ∧
    ((delays (fun _ : ℕ => (5 : ℚ))
        (ClockConstraint.SingletonConstraint 0 1 ComparisonOp.GE)).bind fun a =>
      (delays (fun _ : ℕ => (5 : ℚ)) (ClockConstraint.Boolean true)).map fun b =>
        (a.inter b).mem (-1)) = some false :=
  ⟨by with_unfolding_all decide, by with_unfolding_all decide⟩

/-- C8 (amended): whenever `delays` is defined on both conjuncts (no
diagonal-branch raise), it is defined on the folded conjunction `φ₁ ∧ φ₂`,
and agrees with the interval intersection
`delays(val, φ₁) ∩ delays(val, φ₂)` at every nonnegative delay `t`; the
unrestricted equality fails only because the `≥`/`>` intervals are not
clamped at `0`, so a folded-away `TRUE` conjunct can lose the `[0, ∞)`
clamp. -/
theorem c8_conj_delays_inter {C : Type} (values : C → ℚ)
    (φ1 φ2 : ClockConstraint C) (a b : Ival) (t : ℚ)
    (h1 : delays values φ1 = some a) (h2 : delays values φ2 = some b)
    (ht : 0 ≤ t) :
    ∃ i, delays values (φ1.conj φ2) = some i ∧
      i.mem t = (a.mem t && b.mem t) := by
  cases φ1 with
  | Boolean b1 =>
    cases b1 with
    | false =>
      have ha : a = Ival.emptyIv := by
        have h := h1
        simp [delays] at h
        exact h.symm
      have hc : (ClockConstraint.Boolean false).conj φ2 = ClockConstraint.Boolean false := by
        simp [ClockConstraint.conj]
      refine ⟨Ival.emptyIv, ?_, ?_⟩
      · rw [hc]; simp [delays]
      · rw [ha, Ival.mem_emptyIv, Bool.false_and]
    | true =>
      have ha : a = Ival.closedRay 0 := by
        have h := h1
        simp [delays] at h
        exact h.symm
      have hc : (ClockConstraint.Boolean true).conj φ2 = φ2 := by
        simp [ClockConstraint.conj]
      refine ⟨b, ?_, ?_⟩
      · rw [hc]; exact h2
      · rw [ha, Ival.mem_closedRay_zero t ht, Bool.true_and]
  | And l r =>
    cases φ2 with
    | Boolean b2 =>
      cases b2 with
      | false =>
        have hb : b = Ival.emptyIv := by
          have h := h2
          simp [delays] at h
          exact h.symm
        have hc : (ClockConstraint.And l r).conj (ClockConstraint.Boolean false) =
            ClockConstraint.Boolean false := by
          simp [ClockConstraint.conj]
        refine ⟨Ival.emptyIv, ?_, ?_⟩
        · rw [hc]; simp [delays]
        · rw [hb, Ival.mem_emptyIv, Bool.and_false]
      | true =>
        have hb : b = Ival.closedRay 0 := by
          have h := h2
          simp [delays] at h
          exact h.symm
        have hc : (ClockConstraint.And l r).conj (ClockConstraint.Boolean true) =
            ClockConstraint.And l r := by
          simp [ClockConstraint.conj]
        refine ⟨a, ?_, ?_⟩
        · rw [hc]; exact h1
        · rw [hb, Ival.mem_closedRay_zero t ht, Bool.and_true]
    | And l2 r2 =>
      refine ⟨a.inter b, ?_, Ival.mem_inter a b t⟩
      have hc : (ClockConstraint.And l r).conj (ClockConstraint.And l2 r2) =
          ClockConstraint.And (ClockConstraint.And l r) (ClockConstraint.And l2 r2) := by
        simp [ClockConstraint.conj]
      rw [hc, delays_And, h1, h2]
      rfl
    | SingletonConstraint c2 n2 op2 =>
      refine ⟨a.inter b, ?_, Ival.mem_inter a b t⟩
      have hc : (ClockConstraint.And l r).conj
            (ClockConstraint.SingletonConstraint c2 n2 op2) =
          ClockConstraint.And (ClockConstraint.And l r)
            (ClockConstraint.SingletonConstraint c2 n2 op2) := by
        simp [ClockConstraint.conj]
      rw [hc, delays_And, h1, h2]
      rfl
    | DiagonalConstraint d1 d2 n2 op2 => exact absurd h2 (by simp [delays])
  | SingletonConstraint c1 n1 op1 =>
    cases φ2 with
    | Boolean b2 =>
      cases b2 with
      | false =>
        have hb : b = Ival.emptyIv := by
          have h := h2
          simp [delays] at h
          exact h.symm
        have hc : (ClockConstraint.SingletonConstraint c1 n1 op1).conj
            (ClockConstraint.Boolean false) = ClockConstraint.Boolean false := by
          simp [ClockConstraint.conj]
        refine ⟨Ival.emptyIv, ?_, ?_⟩
        · rw [hc]; simp [delays]
        · rw [hb, Ival.mem_emptyIv, Bool.and_false]
      | true =>
        have hb : b = Ival.closedRay 0 := by
          have h := h2
          simp [delays] at h
          exact h.symm
        have hc : (ClockConstraint.SingletonConstraint c1 n1 op1).conj
            (ClockConstraint.Boolean true) =
            ClockConstraint.SingletonConstraint c1 n1 op1 := by
          simp [ClockConstraint.conj]
        refine ⟨a, ?_, ?_⟩
        · rw [hc]; exact h1
        · rw [hb, Ival.mem_closedRay_zero t ht, Bool.and_true]
    | And l2 r2 =>
      refine ⟨a.inter b, ?_, Ival.mem_inter a b t⟩
      have hc : (ClockConstraint.SingletonConstraint c1 n1 op1).conj
            (ClockConstraint.And l2 r2) =
          ClockConstraint.And (ClockConstraint.SingletonConstraint c1 n1 op1)
            (ClockConstraint.And l2 r2) := by
        simp [ClockConstraint.conj]
      rw [hc, delays_And, h1, h2]
      rfl
    | SingletonConstraint c2 n2 op2 =>
      refine ⟨a.inter b, ?_, Ival.mem_inter a b t⟩
      have hc : (ClockConstraint.SingletonConstraint c1 n1 op1).conj
            (ClockConstraint.SingletonConstraint c2 n2 op2) =
          ClockConstraint.And (ClockConstraint.SingletonConstraint c1 n1 op1)
            (ClockConstraint.SingletonConstraint c2 n2 op2) := by
        simp [ClockConstraint.conj]
      rw [hc, delays_And, h1, h2]
      rfl
    | DiagonalConstraint d1 d2 n2 op2 => exact absurd h2 (by simp [delays])
  | DiagonalConstraint d1 d2 n1 op1 => exact absurd h1 (by simp [delays])

/-- C8 witness: the amended theorem applied at `val(c) = 0`,
`φ₁ = (c ≥ 2)`, `φ₂ = (c ≤ 3)` and `t = 2`. -/
theorem c8_witness :
    ∃ i, delays (fun _ : ℕ => (0 : ℚ))
        ((ClockConstraint.SingletonConstraint 0 2 ComparisonOp.GE).conj
          (ClockConstraint.SingletonConstraint 0 3 ComparisonOp.LE)) = some i ∧
      i.mem 2 = ((Ival.closedRay ((2 : ℚ) - 0)).mem 2 &&
        (Ival.closedSeg 0 ((3 : ℚ) - 0)).mem 2) :=
  c8_conj_delays_inter (fun _ : ℕ => (0 : ℚ))
    (ClockConstraint.SingletonConstraint 0 2 ComparisonOp.GE)
    (ClockConstraint.SingletonConstraint 0 3 ComparisonOp.LE)
    (Ival.closedRay ((2 : ℚ) - 0)) (Ival.closedSeg 0 ((3 : ℚ) - 0)) 2
    rfl rfl (by norm_num)

/-- Walking a transition list whose guards all have defined delay intervals
returns the filtered, satisfied entries with their guards dropped. -/
theorem enabledList_eq_filter {C A D : Type} (values : C → ℚ)
    (l : List (A × ClockConstraint C × D))
    (h : ∀ x ∈ l, (delays values x.2.1).isSome = true) :
    enabledList values l =
      some ((l.filter fun x => satisfies values x.2.1).map fun x => (x.1, x.2.2)) := by
  induction l with
  | nil => rfl
  | cons hd tl ih =>
    obtain ⟨a, g, d⟩ := hd
    obtain ⟨i, hi⟩ :=
      Option.isSome_iff_exists.mp (h (a, g, d) (List.mem_cons_self _ _))
    have htl := ih fun x hx => h x (List.mem_cons_of_mem _ hx)
    have hsat : satisfies values g = i.mem 0 := by simp [satisfies, hi]
    by_cases hm : i.mem 0 = true
    · simp [enabledList, hi, htl, List.filter_cons, hsat, hm]
    · simp [enabledList, hi, htl, List.filter_cons, hsat, hm]

/-! ### Claim C3 -/

/-- C3: for every location and every (total) valuation whose guards all have
defined delay intervals, `enabled_actions(loc, val)` returns exactly the
entries of `transitions[loc]` whose guard is satisfied by `val` — where
satisfaction is the spec's `0 ∈ delays(val, φ)` (the `satisfies` test) —
each reduced to its `label ↦ distribution` pair. -/
theorem c3_enabled_actions {L A C D : Type} (pta : PTA L A C D) (loc : L)
    (values : C → ℚ)
    (h : ∀ x ∈ pta.transitions loc, (delays values x.2.1).isSome = true) :
    pta.enabled_actions loc values =
      some (((pta.transitions loc).filter fun x => satisfies values x.2.1).map
        fun x => (x.1, x.2.2)) :=
  enabledList_eq_filter values (pta.transitions loc) h

/-- C3 witness: the theorem applied to the concrete one-clock PTA at the
valuation `x = 2`, where the single `x ≥ 2` guard is satisfied. -/
theorem c3_witness :
    exPTA.enabled_actions 0 (fun _ => (2 : ℚ)) =
      some (((exPTA.transitions 0).filter
          fun x => satisfies (fun _ => (2 : ℚ)) x.2.1).map
        fun x => (x.1, x.2.2)) :=
  c3_enabled_actions exPTA 0 (fun _ => (2 : ℚ)) (by with_unfolding_all decide)

/-! ### Claim C4 -/

/-- C4: when the invariant's allowed-delay interval is defined, `delay(t)`
dispatches on interval membership (honouring endpoint openness through
`Ival.mem`): inside, the Region is advanced by `delay_float(t)` and the new
`(location, valuation)` pair is returned; outside, the distinguished
violation value `None` is returned with the state untouched. -/
theorem c4_delay_dispatch {L A D : Type} {n : ℕ} (s : RegionMDP L A D n)
    (t : ℚ) (iv : Ival) (h : s.invariant_interval = some iv) :
    s.delay t = if iv.mem t
      then some (some (s.current_location, (s.current_region.delay_float t).value),
        { s with current_region := s.current_region.delay_float t })
      else some (none, s) := by
  unfold RegionMDP.delay
  rw [h]
  rfl

/-- C4 witness: the theorem applied to the concrete one-clock MDP (invariant
`x ≤ 3`, representative `x = 1/2`, allowed delays `[0, 5/2]`) at `t = 1`. -/
theorem c4_witness :
    exMDP.delay 1 = if (Ival.closedSeg 0 ((3 : ℚ) - exMDP.clock_valuation 0)).mem 1
      then some (some (exMDP.current_location,
          (exMDP.current_region.delay_float 1).value),
        { exMDP with current_region := exMDP.current_region.delay_float 1 })
      else some (none, exMDP) :=
  c4_delay_dispatch exMDP 1 (Ival.closedSeg 0 ((3 : ℚ) - exMDP.clock_valuation 0))
    (by with_unfolding_all rfl)

/-! ### Claim C6 -/

/-- C6 counterexample: after `delay(4)` from the concrete MDP (invariant
`x ≤ 3`, allowed delays `[0, 5/2]`) returns the violation value `None`, the
MDP does not refuse further calls — the state is unchanged, and the very
next `delay(1)` succeeds (returns a defined `(location, valuation)` pair)
without any intervening `reset()`. -/
theorem c6_counterexample :
    exMDP.delay 4 = some (none, exMDP) ∧
    (exMDP.delay 1).map (fun p => p.1.isSome) = some true := by
  constructor
  · with_unfolding_all rfl
  · with_unfolding_all rfl

/-- C6 (amended): `delay(t)` with `t` outside the allowed interval returns
the violation value `None` and leaves the MDP state exactly unchanged — no
violated flag is recorded, so subsequent `delay` calls are evaluated against
the same state rather than refused — and `reset()` reinitialises the MDP to
the initial location with the all-zeros Region. -/
theorem c6_no_violation_latch {L A D : Type} {n : ℕ} (s : RegionMDP L A D n)
    (t : ℚ) (iv : Ival) (h : s.invariant_interval = some iv)
    (hmem : iv.mem t = false) :
    s.delay t = some (none, s) ∧
    s.resetMDP = ((s.pta.init_location, (Region.init n).value),
      RegionMDP.initMDP s.pta) := by
  constructor
  · unfold RegionMDP.delay
    rw [h]
    exact if_neg (by simp [hmem])
  · rfl

/-- C6 witness: the amended theorem applied to the concrete MDP at `t = 4`. -/
theorem c6_witness :
    exMDP.delay 4 = some (none, exMDP) ∧
    exMDP.resetMDP = ((exMDP.pta.init_location, (Region.init 1).value),
      RegionMDP.initMDP exMDP.pta) :=
  c6_no_violation_latch exMDP 4
    (Ival.closedSeg 0 ((3 : ℚ) - exMDP.clock_valuation 0))
    (by with_unfolding_all rfl) (by with_unfolding_all decide)

/-! ### Claim C9 -/

/-- C9 (code_bug evidence): `delays` never returns an interval on a diagonal
constraint — the diagonal branch of the source reads the local variable `n`,
which is assigned only in the `SingletonConstraint` branch, so every call
with a `DiagonalConstraint` raises `UnboundLocalError` (embedded as `none`)
instead of deciding the constraint at the current valuation as the claim
states. -/
theorem c9_diagonal_raises {C : Type} (values : C → ℚ) (c1 c2 : C) (n : ℕ)
    (op : ComparisonOp) :
    delays values (ClockConstraint.DiagonalConstraint c1 c2 n op) = none :=
  rfl

/-! ### Claim C10 -/

/-- C10: `validate_support` returns `True` iff the support of the
distribution (the keys of `_dist`) is not a subset of the ambient set; in
particular it returns `False` exactly when every element of the support lies
in `check_set`. -/
theorem c10_validate_support {α : Type} [DecidableEq α]
    (d : DiscreteDistribution α) (check_set : List α) :
    d.validate_support check_set = true ↔
      ¬ (∀ x ∈ d.dist.map Prod.fst, x ∈ check_set) := by
  simp [DiscreteDistribution.validate_support]

end Pta
